import Mathlib

/-!
Shallow embedding of the feature-track fusion engine of `src/tracks.hpp`
(struct `TracksBuilder` and its collaborators).

Modelling conventions:
* `Image::ptr` is an opaque identifier with equality and a total order
  (`std::map` / `std::set` key); it is modelled as `Nat`.
* feature indices (`int` keypoint ids) are modelled as `Nat`.
* an `indexedFeaturePair` `std::pair<Image::ptr, int>` is a `NodeKey`.
* the lemon `ListDigraph` node created per distinct key, together with the
  two flat maps `my_Map` / `reverse_my_Map`, amounts to assigning each
  distinct key its index in the sorted deduplicated key list (`std::set`
  iterates its elements in sorted order, and nodes are created in that
  order); a node is therefore modelled as that index (`internId`).
* the lemon `UnionFindEnum` is modelled by the representative function
  obtained by replaying every `join` call; a class is named by its
  canonical representative, and the class list of the structure is the
  list of representatives still present.  `eraseClass` removes a whole
  class, which is modelled by dropping its representative from `classes`;
  items of surviving classes are untouched, exactly as in the C++
  structure.
-/

namespace Photogram

/-- Key of a referenced feature: `(Image::ptr, keypoint id)` — the
`indexedFeaturePair` of `tracks.hpp`. -/
abbrev NodeKey := Nat × Nat

/-- A pairwise match `IndMatch { queryIdx, trainIdx }`. -/
structure IndMatch where
  queryIdx : Nat
  trainIdx : Nat
  deriving DecidableEq, Repr

/-- An `ImagePair`: the two images and the list of matches between them
(`first()`, `second()`, `get_matches()`). -/
structure ImagePair where
  first : Nat
  second : Nat
  get_matches : List IndMatch
  deriving DecidableEq, Repr

/-- First pass of `TracksBuilder::Build`: all endpoints inserted into
`myset`, in program order.  For each match of each image pair the code
inserts `(first, match.trainIdx)` and `(second, match.queryIdx)`. -/
def endpoints (pairs : List ImagePair) : List NodeKey :=
  pairs.flatMap fun p =>
    p.get_matches.flatMap fun m =>
      [(p.first, m.trainIdx), (p.second, m.queryIdx)]

/-- The `std::pair` comparison used by `std::set<indexedFeaturePair>`:
lexicographic order (non-strict version). -/
abbrev keyLe (a b : NodeKey) : Prop :=
  a.1 < b.1 ∨ (a.1 = b.1 ∧ a.2 ≤ b.2)

/-- The deduplicated, sorted key universe: the contents of `myset` in
iteration order.  Node `i` of the lemon graph corresponds to entry `i` of
this list. -/
def interned (pairs : List ImagePair) : List NodeKey :=
  List.insertionSort keyLe (endpoints pairs).dedup

/-- `my_Map` lookup: the node (dense id) of a key (position of the key in
the sorted key universe, computed with the equality test of `NodeKey`). -/
def internId (pairs : List ImagePair) (k : NodeKey) : Nat :=
  @List.indexOf NodeKey instBEqOfDecidableEq k (interned pairs)

/-- Second pass of `TracksBuilder::Build`: the sequence of
`myTracksUF->join(my_Map[first_pair], my_Map[second_pair])` calls,
as pairs of node ids in program order. -/
def idEdges (pairs : List ImagePair) : List (Nat × Nat) :=
  pairs.flatMap fun p =>
    p.get_matches.map fun m =>
      (internId pairs (p.first, m.trainIdx), internId pairs (p.second, m.queryIdx))

/-- One `join` call on the union-find, acting on the representative
function: everything in the class of `e.1` is repointed to the
representative of `e.2`. -/
def upd (r : Nat → Nat) (e : Nat × Nat) : Nat → Nat :=
  fun x => if r x = r e.1 then r e.2 else r x

/-- Representative function after replaying all `join` calls, starting
from singletons. -/
def buildRepr (es : List (Nat × Nat)) : Nat → Nat :=
  es.foldl upd id

/-- State of a `TracksBuilder` after `Build`: the key registry
(`reverse_my_Map`), the union-find representative function, and the list
of classes still present (each named by its canonical representative, in
increasing order — the enumeration order of the model). -/
structure TBState where
  keys : List NodeKey
  repr : Nat → Nat
  classes : List Nat

/-- `TracksBuilder::Build`: intern all endpoints, then replay all joins.
Initially every nonempty class is present. -/
def build (pairs : List ImagePair) : TBState :=
  { keys := interned pairs
    repr := buildRepr (idEdges pairs)
    classes := (List.range (interned pairs).length).filter
      fun i => decide (buildRepr (idEdges pairs) i = i) }

/-- Items of a class (the `ItemIt` iteration): all node ids of the
original universe whose representative is `c`. -/
def classItems (s : TBState) (c : Nat) : List Nat :=
  (List.range s.keys.length).filter fun i => decide (s.repr i = c)

/-- `reverse_my_Map[it].first`: the image of a node id. -/
def img (s : TBState) (i : Nat) : Nat :=
  (s.keys.getD i (0, 0)).1

/-- `reverse_my_Map[it].second`: the feature index of a node id. -/
def feat (s : TBState) (i : Nat) : Nat :=
  (s.keys.getD i (0, 0)).2

/-- The images of the members of a class, with multiplicity (in item
order). `classImages s c` has length `cpt` and its deduplication is
`myset` of `TracksBuilder::Filter`. -/
def classImages (s : TBState) (c : Nat) : List Nat :=
  (classItems s c).map (img s)

/-- Erasure condition of `TracksBuilder::Filter`:
`myset.size() != cpt || myset.size() < nLengthSupTo`. -/
abbrev classErasedByFilter (s : TBState) (n : Nat) (c : Nat) : Prop :=
  (classImages s c).dedup.length ≠ (classItems s c).length ∨
    (classImages s c).dedup.length < n

/-- `TracksBuilder::Filter(nLengthSupTo)`: every class satisfying the
erasure condition is erased (`set_classToErase` is collected during the
scan, then every collected class is erased). -/
def Filter (s : TBState) (n : Nat) : TBState :=
  { s with classes := s.classes.filter fun c => decide (¬ classErasedByFilter s n c) }

/-- Node ids still present in the union-find structure: the items of the
classes still present. -/
def aliveItems (s : TBState) : List Nat :=
  s.classes.flatMap (classItems s)

/-- The key list of `map_tracksIdPerImages` of
`TracksBuilder::FilterPairWiseMinimumMatches`: every image owning at
least one present item, in increasing (`std::map`) order. -/
def imagesList (s : TBState) : List Nat :=
  List.insertionSort (· ≤ ·) ((aliveItems s).map (img s)).dedup

/-- `map_tracksIdPerImages[I]`: the classes (track ids) with at least one
member whose image is `I`, as a sorted set. -/
def tracksOfImage (s : TBState) (I : Nat) : List Nat :=
  s.classes.filter fun c => (classItems s c).any fun i => decide (img s i = I)

/-- `set_intersection(setA, setB)` for two per-image track sets. -/
def interTracks (s : TBState) (I J : Nat) : List Nat :=
  (tracksOfImage s I).filter fun c => (tracksOfImage s J).contains c

/-- The iteration pattern `iter2` starting from `iter` (not `iter + 1`):
all pairs of entries of a list where the second entry is at the same or a
later position, including the diagonal. -/
def suffixPairs : List α → List (α × α)
  | [] => []
  | a :: rest => ((a :: rest).map fun b => (a, b)) ++ suffixPairs rest

/-- `vec_tracksToRemove` (before `sort`/`unique`): for every pair of
images `(I, J)` with `J` at the same or later map position, if the
intersection of their track sets has fewer than `minMatchesOccurences`
elements, its elements are appended. -/
def vecTracksToRemove (s : TBState) (m : Nat) : List Nat :=
  (suffixPairs (imagesList s)).flatMap fun ij =>
    if (interTracks s ij.1 ij.2).length < m then interTracks s ij.1 ij.2 else []

/-- `TracksBuilder::FilterPairWiseMinimumMatches(minMatchesOccurences)`:
erase every marked class (the `sort` + `unique` pass only deduplicates
the list before the `eraseClass` loop, so exactly the set of marked
classes is erased). -/
def FilterPairWiseMinimumMatches (s : TBState) (m : Nat) : TBState :=
  { s with classes := s.classes.filter fun c => !(vecTracksToRemove s m).contains c }

/-- `TracksBuilder::NbTracks()`: number of classes still present. -/
def NbTracks (s : TBState) : Nat :=
  s.classes.length

/-- A track payload: the `submapTrack` `std::map<Image::ptr, int>`,
modelled as an association list with at most one entry per image
(insertion order of first writes; the claims under study never depend on
the iteration order of this inner map). -/
abbrev submapTrack := List (Nat × Nat)

/-- The exported `STLMAPTracks` `std::map<int, submapTrack>`; outer keys
are produced in increasing order `0, 1, 2, …`. -/
abbrev STLMAPTracks := List (Nat × submapTrack)

/-- `std::map` `operator[]` assignment on the inner track map: overwrite
the entry of key `k` if present, otherwise add one. -/
def insertA : List (Nat × Nat) → Nat → Nat → List (Nat × Nat)
  | [], k, v => [(k, v)]
  | (k1, v1) :: t, k, v => if k = k1 then (k, v) :: t else (k1, v1) :: insertA t k v

/-- Inner map of one exported track: for each item of the class, resolve
it through `reverse_my_Map` and assign
`iterN->second[currentPair.first] = currentPair.second`. -/
def submapOfClass (s : TBState) (c : Nat) : submapTrack :=
  (classItems s c).foldl (fun acc i => insertA acc (img s i) (feat s i)) []

/-- `TracksBuilder::ExportToSTL(map_tracks)`: the output map is cleared
first (`map_tracks.clear()`), then every present class is inserted under
a fresh contiguous id `cptClass`.  The pre-call contents of the output
map are the `old` argument, discarded by the clear. -/
def ExportToSTL (s : TBState) (old : STLMAPTracks) : STLMAPTracks :=
  (fun _cleared => s.classes.enum.map fun nc => (nc.1, submapOfClass s nc.2))
    (old.drop old.length)

/-- Paths in the undirected graph generated by a relation: the
reflexive-symmetric-transitive closure. -/
inductive Conn (R : α → α → Prop) : α → α → Prop
  | base {x y : α} : R x y → Conn R x y
  | refl (x : α) : Conn R x x
  | symm {x y : α} : Conn R x y → Conn R y x
  | trans {x y z : α} : Conn R x y → Conn R y z → Conn R x z

/-- The match relation on node keys asserted by the input: some image
pair carries a match whose `train` endpoint is `k` and whose `query`
endpoint is `k2`. -/
def matchRel (pairs : List ImagePair) (k k2 : NodeKey) : Prop :=
  ∃ p ∈ pairs, ∃ m ∈ p.get_matches,
    k = (p.first, m.trainIdx) ∧ k2 = (p.second, m.queryIdx)

/-- Auxiliary relation for the union-find replay: two ids are related if
they already share a representative under `r`, or an edge of `es` links
them. -/
def joinRel (r : Nat → Nat) (es : List (Nat × Nat)) (x y : Nat) : Prop :=
  r x = r y ∨ (x, y) ∈ es

/-- Edge relation of a `join` list on node ids. -/
def edgeRel (es : List (Nat × Nat)) (i j : Nat) : Prop :=
  (i, j) ∈ es

/-- A filtering call of the builder pipeline. -/
inductive FilterOp where
  | conflict (k : Nat)
  | pairwise (m : Nat)
  deriving DecidableEq, Repr

/-- Apply one filtering call. -/
def applyOp (s : TBState) : FilterOp → TBState
  | .conflict k => Filter s k
  | .pairwise m => FilterPairWiseMinimumMatches s m

/-- Apply a sequence of filtering calls, left to right. -/
def applyOps (s : TBState) (ops : List FilterOp) : TBState :=
  ops.foldl applyOp s

/-- Every present class is free of same-image conflicts. -/
def conflictFree (s : TBState) : Prop :=
  ∀ c ∈ s.classes, (classImages s c).Nodup

/-- Keys of an association list. -/
def keysOf (l : List (Nat × Nat)) : List Nat :=
  l.map Prod.fst

/-- Scenario input: one image pair `(0, 1)` with two matches — the
two-image case S1 of the specification. -/
def pairsS1 : List ImagePair :=
  [⟨0, 1, [⟨10, 1⟩, ⟨20, 2⟩]⟩]

/-- Scenario input: the chain `(0,1) : (1 ↔ 10)`, `(1,2) : (10 ↔ 100)`. -/
def pairsChain : List ImagePair :=
  [⟨0, 1, [⟨10, 1⟩]⟩, ⟨1, 2, [⟨100, 10⟩]⟩]

/-- Scenario input: one image pair `(0, 1)` whose two matches share the
`train` feature `1`, creating the conflicting class
`{(0,1), (1,10), (1,20)}`. -/
def pairsConflict : List ImagePair :=
  [⟨0, 1, [⟨10, 1⟩, ⟨20, 1⟩]⟩]

/-- Scenario input: a match whose image pair has the same image on both
sides and equal feature indices, so that both endpoints are one single
node key. -/
def pairsSelf : List ImagePair :=
  [⟨0, 0, [⟨5, 5⟩]⟩]

/-- Scenario input: a match whose image pair has the same image on both
sides and distinct feature indices, creating a genuine same-image
conflict. -/
def pairsSelfTwo : List ImagePair :=
  [⟨0, 0, [⟨7, 5⟩]⟩]

/-! ### Union-find replay: the representative function -/

theorem upd_eq_iff (r : Nat → Nat) (e : Nat × Nat) (x y : Nat) :
    upd r e x = upd r e y ↔
      (r x = r y ∨ (r x = r e.1 ∧ r y = r e.2) ∨ (r x = r e.2 ∧ r y = r e.1)) := by
  simp only [upd]
  by_cases hx : r x = r e.1
  · by_cases hy : r y = r e.1
    · simp only [if_pos hx, if_pos hy]
      constructor
      · intro _
        exact Or.inl (hx.trans hy.symm)
      · intro _
        trivial
    · simp only [if_pos hx, if_neg hy]
      constructor
      · intro h
        exact Or.inr (Or.inl ⟨hx, h.symm⟩)
      · rintro (h | ⟨h1, h2⟩ | ⟨h1, h2⟩)
        · exact absurd (h.symm.trans hx) hy
        · exact h2.symm
        · exact absurd h2 hy
  · by_cases hy : r y = r e.1
    · simp only [if_neg hx, if_pos hy]
      constructor
      · intro h
        exact Or.inr (Or.inr ⟨h, hy⟩)
      · rintro (h | ⟨h1, h2⟩ | ⟨h1, h2⟩)
        · exact absurd (h.trans hy) hx
        · exact absurd h1 hx
        · exact h1
    · simp only [if_neg hx, if_neg hy]
      constructor
      · intro h
        exact Or.inl h
      · rintro (h | ⟨h1, h2⟩ | ⟨h1, h2⟩)
        · exact h
        · exact absurd h1 hx
        · exact absurd h2 hy

theorem conn_joinRel_cons (r : Nat → Nat) (e : Nat × Nat) (es : List (Nat × Nat)) (x y : Nat) :
    Conn (joinRel (upd r e) es) x y ↔ Conn (joinRel r (e :: es)) x y := by
  have hmem : (e.1, e.2) ∈ e :: es := by
    rw [Prod.mk.eta]
    exact List.mem_cons_self e es
  constructor
  · intro h
    induction h with
    | base h =>
      rcases h with h | h
      · rcases (upd_eq_iff r e _ _).mp h with h1 | ⟨h1, h2⟩ | ⟨h1, h2⟩
        · exact Conn.base (Or.inl h1)
        · exact Conn.trans (Conn.trans (Conn.base (Or.inl h1)) (Conn.base (Or.inr hmem)))
            (Conn.base (Or.inl h2.symm))
        · exact Conn.trans (Conn.trans (Conn.base (Or.inl h1))
            (Conn.symm (Conn.base (Or.inr hmem)))) (Conn.base (Or.inl h2.symm))
      · exact Conn.base (Or.inr (List.mem_cons_of_mem _ h))
    | refl z => exact Conn.refl z
    | symm _ ih => exact Conn.symm ih
    | trans _ _ ih1 ih2 => exact Conn.trans ih1 ih2
  · intro h
    induction h with
    | @base a b h =>
      rcases h with h | h
      · exact Conn.base (Or.inl ((upd_eq_iff r e a b).mpr (Or.inl h)))
      · rcases List.mem_cons.mp h with h | h
        · have ha : a = e.1 := by rw [← h]
          have hb : b = e.2 := by rw [← h]
          exact Conn.base (Or.inl ((upd_eq_iff r e a b).mpr
            (Or.inr (Or.inl ⟨by rw [ha], by rw [hb]⟩))))
        · exact Conn.base (Or.inr h)
    | refl z => exact Conn.refl z
    | symm _ ih => exact Conn.symm ih
    | trans _ _ ih1 ih2 => exact Conn.trans ih1 ih2

theorem foldl_upd_eq_iff (es : List (Nat × Nat)) :
    ∀ (r : Nat → Nat) (x y : Nat),
      (es.foldl upd r) x = (es.foldl upd r) y ↔ Conn (joinRel r es) x y := by
  induction es with
  | nil =>
    intro r x y
    simp only [List.foldl_nil]
    constructor
    · intro h
      exact Conn.base (Or.inl h)
    · intro h
      induction h with
      | base h =>
        rcases h with h | h
        · exact h
        · cases h
      | refl z => rfl
      | symm _ ih => exact ih.symm
      | trans _ _ ih1 ih2 => exact ih1.trans ih2
  | cons e es ih =>
    intro r x y
    simp only [List.foldl_cons]
    rw [ih (upd r e) x y]
    exact conn_joinRel_cons r e es x y

theorem buildRepr_eq_iff (es : List (Nat × Nat)) (x y : Nat) :
    buildRepr es x = buildRepr es y ↔ Conn (edgeRel es) x y := by
  rw [buildRepr, foldl_upd_eq_iff]
  constructor
  · intro h
    induction h with
    | @base a b h =>
      rcases h with h | h
      · exact (show a = b from h) ▸ Conn.refl a
      · exact Conn.base h
    | refl z => exact Conn.refl z
    | symm _ ih => exact Conn.symm ih
    | trans _ _ ih1 ih2 => exact Conn.trans ih1 ih2
  · intro h
    induction h with
    | base h => exact Conn.base (Or.inr h)
    | refl z => exact Conn.refl z
    | symm _ ih => exact Conn.symm ih
    | trans _ _ ih1 ih2 => exact Conn.trans ih1 ih2

theorem upd_idem {r : Nat → Nat} (hr : ∀ z, r (r z) = r z) (e : Nat × Nat) :
    ∀ z, upd r e (upd r e z) = upd r e z := by
  intro z
  simp only [upd]
  by_cases hz : r z = r e.1
  · rw [if_pos hz]
    have h2 : r (r e.2) = r e.2 := hr e.2
    by_cases hb : r e.2 = r e.1
    · rw [if_pos (h2.trans hb)]
    · rw [if_neg (fun hcon => hb (h2.symm.trans hcon))]
      exact h2
  · rw [if_neg hz, if_neg (fun hcon => hz ((hr z).symm.trans hcon))]
    exact hr z

theorem buildRepr_idem (es : List (Nat × Nat)) :
    ∀ z, buildRepr es (buildRepr es z) = buildRepr es z := by
  suffices h : ∀ (r : Nat → Nat), (∀ z, r (r z) = r z) →
      ∀ z, (es.foldl upd r) ((es.foldl upd r) z) = (es.foldl upd r) z by
    exact h id fun z => rfl
  induction es with
  | nil =>
    intro r hr z
    simpa using hr z
  | cons e es ih =>
    intro r hr z
    simp only [List.foldl_cons]
    exact ih (upd r e) (upd_idem hr e) z

theorem foldl_upd_lt (N : Nat) :
    ∀ (es : List (Nat × Nat)) (r : Nat → Nat), (∀ e ∈ es, e.2 < N) →
      (∀ x, x < N → r x < N) → ∀ x, x < N → (es.foldl upd r) x < N := by
  intro es
  induction es with
  | nil =>
    intro r _ hr x hx
    simpa using hr x hx
  | cons e es ih =>
    intro r hes hr x hx
    simp only [List.foldl_cons]
    refine ih (upd r e) (fun e2 he => hes e2 (List.mem_cons_of_mem _ he)) ?_ x hx
    intro z hz
    simp only [upd]
    split
    · exact hr e.2 (hes e (List.mem_cons_self e es))
    · exact hr z hz

theorem buildRepr_lt {es : List (Nat × Nat)} {N : Nat} (hes : ∀ e ∈ es, e.2 < N)
    {x : Nat} (hx : x < N) : buildRepr es x < N :=
  foldl_upd_lt N es id hes (fun _ h => h) x hx

/-! ### The interning registry -/

theorem mem_interned (pairs : List ImagePair) (k : NodeKey) :
    k ∈ interned pairs ↔ k ∈ endpoints pairs := by
  rw [interned, List.mem_insertionSort, List.mem_dedup]

theorem nodup_interned (pairs : List ImagePair) : (interned pairs).Nodup := by
  rw [interned]
  exact ((List.perm_insertionSort keyLe _).nodup_iff).mpr (List.nodup_dedup _)

theorem match_endpoint_mem (pairs : List ImagePair) (p : ImagePair) (m : IndMatch)
    (hp : p ∈ pairs) (hm : m ∈ p.get_matches) :
    (p.first, m.trainIdx) ∈ endpoints pairs ∧ (p.second, m.queryIdx) ∈ endpoints pairs := by
  constructor
  · rw [endpoints]
    simp only [List.mem_flatMap]
    exact ⟨p, hp, m, hm, by simp⟩
  · rw [endpoints]
    simp only [List.mem_flatMap]
    exact ⟨p, hp, m, hm, by simp⟩

theorem internId_lt (pairs : List ImagePair) (k : NodeKey) (h : k ∈ interned pairs) :
    internId pairs k < (interned pairs).length := by
  rw [internId]
  exact List.indexOf_lt_length.mpr h

theorem internId_inj (pairs : List ImagePair) {k1 k2 : NodeKey}
    (h1 : k1 ∈ interned pairs) (h2 : k2 ∈ interned pairs)
    (h : internId pairs k1 = internId pairs k2) : k1 = k2 := by
  rw [internId, internId] at h
  exact (List.indexOf_inj h1 h2).mp h

theorem getD_internId (pairs : List ImagePair) {k : NodeKey} (h : k ∈ interned pairs) :
    (interned pairs).getD (internId pairs k) (0, 0) = k := by
  rw [List.getD_eq_getElem _ _ (internId_lt pairs k h)]
  simp only [internId]
  exact List.getElem_indexOf (List.indexOf_lt_length.mpr h)

theorem internId_getD (pairs : List ImagePair) {n : Nat} (hn : n < (interned pairs).length) :
    internId pairs ((interned pairs).getD n (0, 0)) = n := by
  rw [List.getD_eq_getElem _ _ hn]
  simp only [internId]
  exact List.indexOf_getElem (nodup_interned pairs) n hn

theorem mem_idEdges_iff (pairs : List ImagePair) (i j : Nat) :
    (i, j) ∈ idEdges pairs ↔ ∃ p ∈ pairs, ∃ m ∈ p.get_matches,
      i = internId pairs (p.first, m.trainIdx) ∧ j = internId pairs (p.second, m.queryIdx) := by
  rw [idEdges]
  simp only [List.mem_flatMap, List.mem_map]
  constructor
  · rintro ⟨p, hp, m, hm, heq⟩
    cases heq
    exact ⟨p, hp, m, hm, rfl, rfl⟩
  · rintro ⟨p, hp, m, hm, hi, hj⟩
    subst hi
    subst hj
    exact ⟨p, hp, m, hm, rfl⟩

theorem idEdges_bound (pairs : List ImagePair) :
    ∀ e ∈ idEdges pairs, e.1 < (interned pairs).length ∧ e.2 < (interned pairs).length := by
  rintro ⟨i, j⟩ he
  rcases (mem_idEdges_iff pairs i j).mp he with ⟨p, hp, m, hm, hi, hj⟩
  subst hi
  subst hj
  refine ⟨internId_lt _ _ ?_, internId_lt _ _ ?_⟩
  · exact (mem_interned _ _).mpr (match_endpoint_mem pairs p m hp hm).1
  · exact (mem_interned _ _).mpr (match_endpoint_mem pairs p m hp hm).2

/-! ### Transport between node ids and node keys -/

theorem conn_edge_bound (pairs : List ImagePair) {i j : Nat}
    (h : Conn (edgeRel (idEdges pairs)) i j) :
    i = j ∨ (i < (interned pairs).length ∧ j < (interned pairs).length) := by
  induction h with
  | base h =>
    exact Or.inr ⟨(idEdges_bound pairs _ h).1, (idEdges_bound pairs _ h).2⟩
  | refl z => exact Or.inl rfl
  | symm _ ih =>
    rcases ih with h | ⟨h1, h2⟩
    · exact Or.inl h.symm
    · exact Or.inr ⟨h2, h1⟩
  | trans _ _ ih1 ih2 =>
    rcases ih1 with h | ⟨h1, h2⟩ <;> rcases ih2 with g | ⟨g1, g2⟩
    · exact Or.inl (h.trans g)
    · exact Or.inr ⟨by rw [h]; exact g1, g2⟩
    · exact Or.inr ⟨h1, by rw [← g]; exact h2⟩
    · exact Or.inr ⟨h1, g2⟩

theorem conn_keys_to_ids (pairs : List ImagePair) {k1 k2 : NodeKey}
    (h : Conn (matchRel pairs) k1 k2) :
    Conn (edgeRel (idEdges pairs)) (internId pairs k1) (internId pairs k2) := by
  induction h with
  | base h =>
    rcases h with ⟨p, hp, m, hm, h1, h2⟩
    subst h1
    subst h2
    exact Conn.base ((mem_idEdges_iff pairs _ _).mpr ⟨p, hp, m, hm, rfl, rfl⟩)
  | refl z => exact Conn.refl _
  | symm _ ih => exact Conn.symm ih
  | trans _ _ ih1 ih2 => exact Conn.trans ih1 ih2

theorem conn_ids_to_keys (pairs : List ImagePair) {i j : Nat}
    (h : Conn (edgeRel (idEdges pairs)) i j) :
    ∀ k1 k2, k1 ∈ interned pairs → k2 ∈ interned pairs →
      internId pairs k1 = i → internId pairs k2 = j → Conn (matchRel pairs) k1 k2 := by
  induction h with
  | @base a b h =>
    intro k1 k2 hk1 hk2 hi hj
    rcases (mem_idEdges_iff pairs _ _).mp h with ⟨p, hp, m, hm, h1, h2⟩
    have e1 : k1 = (p.first, m.trainIdx) :=
      internId_inj pairs hk1 ((mem_interned _ _).mpr (match_endpoint_mem pairs p m hp hm).1)
        (by rw [hi, h1])
    have e2 : k2 = (p.second, m.queryIdx) :=
      internId_inj pairs hk2 ((mem_interned _ _).mpr (match_endpoint_mem pairs p m hp hm).2)
        (by rw [hj, h2])
    exact Conn.base ⟨p, hp, m, hm, e1, e2⟩
  | @refl z =>
    intro k1 k2 hk1 hk2 hi hj
    have hk : k1 = k2 := internId_inj pairs hk1 hk2 (by rw [hi, hj])
    exact hk ▸ Conn.refl k1
  | @symm a b _ ih =>
    intro k1 k2 hk1 hk2 hi hj
    exact Conn.symm (ih k2 k1 hk2 hk1 hj hi)
  | @trans a b c h1 h2 ih1 ih2 =>
    intro k1 k2 hk1 hk2 hi hj
    rcases conn_edge_bound pairs h1 with heq | ⟨hb1, hb2⟩
    · exact ih2 k1 k2 hk1 hk2 (by rw [hi, heq]) hj
    · have hmem : (interned pairs).getD b (0, 0) ∈ interned pairs := by
        rw [List.getD_eq_getElem _ _ hb2]
        exact List.getElem_mem _
      exact Conn.trans (ih1 k1 _ hk1 hmem hi (internId_getD pairs hb2))
        (ih2 _ k2 hmem hk2 (internId_getD pairs hb2) hj)

/-- Claim C1: after `Build(pairs)`, for every two node keys interned from
the input, their node ids lie in the same union-find class (have equal
representatives) if and only if the undirected graph whose edges are the
input matches has a path between them — `Conn` is the
reflexive-symmetric-transitive closure of the match relation. -/
theorem build_sameClass_iff_path (pairs : List ImagePair) (k1 k2 : NodeKey)
    (h1 : k1 ∈ interned pairs) (h2 : k2 ∈ interned pairs) :
    ((build pairs).repr (internId pairs k1) = (build pairs).repr (internId pairs k2) ↔
      Conn (matchRel pairs) k1 k2) := by
  show buildRepr (idEdges pairs) _ = buildRepr (idEdges pairs) _ ↔ _
  rw [buildRepr_eq_iff]
  constructor
  · intro h
    exact conn_ids_to_keys pairs h k1 k2 h1 h2 rfl rfl
  · intro h
    exact conn_keys_to_ids pairs h

/-- Witness for C1 at the chain input `pairsChain`: the keys `(0, 1)` and
`(2, 100)` are interned, and the equivalence holds for them. -/
theorem build_sameClass_iff_path_witness :
    ((0, 1) : NodeKey) ∈ interned pairsChain ∧
      ((2, 100) : NodeKey) ∈ interned pairsChain ∧
      ((build pairsChain).repr (internId pairsChain (0, 1)) =
          (build pairsChain).repr (internId pairsChain (2, 100)) ↔
        Conn (matchRel pairsChain) (0, 1) (2, 100)) :=
  ⟨by decide, by decide,
    build_sameClass_iff_path pairsChain (0, 1) (2, 100) (by decide) (by decide)⟩

/-- Claim C9: for every `ImagePair` and every match it carries, `Build`
registers the node key `(first image, trainIdx)` and the node key
`(second image, queryIdx)` — the first image is consistently associated
with `trainIdx` and the second with `queryIdx`, in the interning pass —
and the union pass joins precisely those two node ids, so they end with
equal representatives. -/
theorem build_registers_and_unites (pairs : List ImagePair) (p : ImagePair) (m : IndMatch)
    (hp : p ∈ pairs) (hm : m ∈ p.get_matches) :
    (p.first, m.trainIdx) ∈ (build pairs).keys ∧
      (p.second, m.queryIdx) ∈ (build pairs).keys ∧
      (build pairs).repr (internId pairs (p.first, m.trainIdx)) =
        (build pairs).repr (internId pairs (p.second, m.queryIdx)) := by
  refine ⟨?_, ?_, ?_⟩
  · show _ ∈ interned pairs
    exact (mem_interned _ _).mpr (match_endpoint_mem pairs p m hp hm).1
  · show _ ∈ interned pairs
    exact (mem_interned _ _).mpr (match_endpoint_mem pairs p m hp hm).2
  · show buildRepr (idEdges pairs) _ = buildRepr (idEdges pairs) _
    rw [buildRepr_eq_iff]
    exact Conn.base ((mem_idEdges_iff pairs _ _).mpr ⟨p, hp, m, hm, rfl, rfl⟩)

/-- Witness for C9 at the input `pairsS1` and its first match. -/
theorem build_registers_and_unites_witness :
    (⟨0, 1, [⟨10, 1⟩, ⟨20, 2⟩]⟩ : ImagePair) ∈ pairsS1 ∧
      (⟨10, 1⟩ : IndMatch) ∈ (⟨0, 1, [⟨10, 1⟩, ⟨20, 2⟩]⟩ : ImagePair).get_matches ∧
      (((0, 1) : NodeKey) ∈ (build pairsS1).keys ∧
        ((1, 10) : NodeKey) ∈ (build pairsS1).keys ∧
        (build pairsS1).repr (internId pairsS1 (0, 1)) =
          (build pairsS1).repr (internId pairsS1 (1, 10))) :=
  ⟨by decide, by decide,
    build_registers_and_unites pairsS1 ⟨0, 1, [⟨10, 1⟩, ⟨20, 2⟩]⟩ ⟨10, 1⟩ (by decide) (by decide)⟩

/-! ### The conflict filter -/

theorem mem_filter_classes (s : TBState) (n : Nat) (c : Nat) :
    c ∈ (Filter s n).classes ↔ c ∈ s.classes ∧ ¬ classErasedByFilter s n c := by
  show c ∈ s.classes.filter _ ↔ _
  simp [List.mem_filter]

theorem dedup_length_eq_iff (l : List Nat) : l.dedup.length = l.length ↔ l.Nodup := by
  constructor
  · intro h
    have hd : l.dedup = l := (List.dedup_sublist l).eq_of_length h
    rw [← hd]
    exact List.nodup_dedup l
  · intro h
    rw [List.dedup_eq_self.mpr h]

theorem classImages_length (s : TBState) (c : Nat) :
    (classImages s c).length = (classItems s c).length := by
  rw [classImages, List.length_map]

/-- Claim C2: `Filter(minTrackLength)` erases a class if and only if,
writing `L` for the class cardinality and `S` for the set of distinct
images of its members, `|S| ≠ L` or `|S| < minTrackLength`; consequently
every surviving class has pairwise-distinct images and at least
`minTrackLength` members, and a non-conflicting class of length exactly
`minTrackLength` survives. -/
theorem filter_erases_iff (s : TBState) (k : Nat) :
    (∀ c ∈ s.classes,
        (c ∉ (Filter s k).classes ↔
          (classImages s c).dedup.length ≠ (classItems s c).length ∨
            (classImages s c).dedup.length < k)) ∧
      (∀ c ∈ (Filter s k).classes,
        (classImages s c).Nodup ∧ k ≤ (classItems s c).length) ∧
      (∀ c ∈ s.classes, (classImages s c).Nodup → (classItems s c).length = k →
        c ∈ (Filter s k).classes) := by
  refine ⟨?_, ?_, ?_⟩
  · intro c hc
    rw [mem_filter_classes]
    constructor
    · intro h
      by_contra hnc
      exact h ⟨hc, hnc⟩
    · intro h hmem
      exact hmem.2 h
  · intro c hc
    rw [mem_filter_classes] at hc
    have hcond := not_or.mp hc.2
    have hlen : (classImages s c).dedup.length = (classItems s c).length :=
      not_not.mp hcond.1
    have hnd : (classImages s c).Nodup := by
      rw [← dedup_length_eq_iff]
      rw [hlen, classImages_length]
    refine ⟨hnd, ?_⟩
    have hk : k ≤ (classImages s c).dedup.length := Nat.le_of_not_lt hcond.2
    rw [hlen] at hk
    exact hk
  · intro c hc hnd hlen
    rw [mem_filter_classes]
    refine ⟨hc, ?_⟩
    rintro (h | h)
    · apply h
      rw [List.dedup_eq_self.mpr hnd, classImages_length]
    · rw [List.dedup_eq_self.mpr hnd, classImages_length, hlen] at h
      exact Nat.lt_irrefl k h

/-- Witness for C2 at the input `pairsS1`, class `2`, threshold `2`. -/
theorem filter_erases_iff_witness :
    (2 ∈ (build pairsS1).classes) ∧
      ((2 ∉ (Filter (build pairsS1) 2).classes ↔
        (classImages (build pairsS1) 2).dedup.length ≠
            (classItems (build pairsS1) 2).length ∨
          (classImages (build pairsS1) 2).dedup.length < 2)) :=
  ⟨by decide, (filter_erases_iff (build pairsS1) 2).1 2 (by decide)⟩

/-- Counterexample to claim C6 as stated: the input `pairsSelf` contains
a match whose pair has the same image `0` on both sides (with
`trainIdx = queryIdx = 5`), yet the resulting class — class `0`, the
class of the single node key `(0, 5)` — has pairwise-distinct images (no
same-image conflict) and survives `Filter 1`: the conflict filter does
not remove it. -/
theorem same_image_match_conflict_counterexample :
    (pairsSelf = [⟨0, 0, [⟨5, 5⟩]⟩]) ∧
      (build pairsSelf).repr (internId pairsSelf (0, 5)) = 0 ∧
      (classImages (build pairsSelf) 0).Nodup ∧
      (Filter (build pairsSelf) 1).classes = [0] :=
  ⟨rfl, by decide, by decide, by decide⟩

/-- Claim C6, amended: for every input containing a match whose pair has
the same image on both sides, `Build` accepts it; provided the two
endpoint keys are distinct (`trainIdx ≠ queryIdx`), the resulting class
contains a same-image conflict and `Filter` removes it at every
threshold.  (When `trainIdx = queryIdx` the two endpoints are one single
node key and no conflict arises, as the counterexample shows.) -/
theorem same_image_match_erased (pairs : List ImagePair) (p : ImagePair) (m : IndMatch)
    (k : Nat) (hp : p ∈ pairs) (hm : m ∈ p.get_matches) (himg : p.first = p.second)
    (hne : m.trainIdx ≠ m.queryIdx) :
    (build pairs).repr (internId pairs (p.first, m.trainIdx)) ∈ (build pairs).classes ∧
      ¬ (classImages (build pairs)
          ((build pairs).repr (internId pairs (p.first, m.trainIdx)))).Nodup ∧
      (build pairs).repr (internId pairs (p.first, m.trainIdx)) ∉
        (Filter (build pairs) k).classes := by
  have hk1 : (p.first, m.trainIdx) ∈ interned pairs :=
    (mem_interned _ _).mpr (match_endpoint_mem pairs p m hp hm).1
  have hk2 : (p.second, m.queryIdx) ∈ interned pairs :=
    (mem_interned _ _).mpr (match_endpoint_mem pairs p m hp hm).2
  have hkeys : ((p.first, m.trainIdx) : NodeKey) ≠ (p.second, m.queryIdx) := by
    intro hcon
    exact hne (congrArg Prod.snd hcon)
  have hne12 : internId pairs (p.first, m.trainIdx) ≠ internId pairs (p.second, m.queryIdx) := by
    intro hcon
    exact hkeys (internId_inj pairs hk1 hk2 hcon)
  have hlt1 : internId pairs (p.first, m.trainIdx) < (interned pairs).length :=
    internId_lt pairs _ hk1
  have hlt2 : internId pairs (p.second, m.queryIdx) < (interned pairs).length :=
    internId_lt pairs _ hk2
  have hrepr : buildRepr (idEdges pairs) (internId pairs (p.first, m.trainIdx)) =
      buildRepr (idEdges pairs) (internId pairs (p.second, m.queryIdx)) := by
    rw [buildRepr_eq_iff]
    exact Conn.base ((mem_idEdges_iff pairs _ _).mpr ⟨p, hp, m, hm, rfl, rfl⟩)
  have hclt : buildRepr (idEdges pairs) (internId pairs (p.first, m.trainIdx)) <
      (interned pairs).length :=
    buildRepr_lt (fun e he => (idEdges_bound pairs e he).2) hlt1
  have hcmem : (build pairs).repr (internId pairs (p.first, m.trainIdx)) ∈
      (build pairs).classes := by
    show _ ∈ (List.range (interned pairs).length).filter _
    rw [List.mem_filter]
    refine ⟨List.mem_range.mpr hclt, ?_⟩
    rw [decide_eq_true_iff]
    exact buildRepr_idem (idEdges pairs) _
  have hitem1 : internId pairs (p.first, m.trainIdx) ∈
      classItems (build pairs) ((build pairs).repr (internId pairs (p.first, m.trainIdx))) := by
    rw [classItems, List.mem_filter]
    refine ⟨List.mem_range.mpr ?_, by rw [decide_eq_true_iff]⟩
    show _ < (interned pairs).length
    exact hlt1
  have hitem2 : internId pairs (p.second, m.queryIdx) ∈
      classItems (build pairs) ((build pairs).repr (internId pairs (p.first, m.trainIdx))) := by
    rw [classItems, List.mem_filter]
    refine ⟨List.mem_range.mpr ?_, ?_⟩
    · show _ < (interned pairs).length
      exact hlt2
    · rw [decide_eq_true_iff]
      exact hrepr.symm
  have himg1 : img (build pairs) (internId pairs (p.first, m.trainIdx)) = p.first := by
    rw [img]
    show ((interned pairs).getD _ (0, 0)).1 = p.first
    rw [getD_internId pairs hk1]
  have himg2 : img (build pairs) (internId pairs (p.second, m.queryIdx)) = p.second := by
    rw [img]
    show ((interned pairs).getD _ (0, 0)).1 = p.second
    rw [getD_internId pairs hk2]
  have hnnd : ¬ (classImages (build pairs)
      ((build pairs).repr (internId pairs (p.first, m.trainIdx)))).Nodup := by
    intro hnd
    rw [classImages] at hnd
    have := List.inj_on_of_nodup_map hnd hitem1 hitem2 (by rw [himg1, himg2, himg])
    exact hne12 this
  refine ⟨hcmem, hnnd, ?_⟩
  intro hmem
  rw [mem_filter_classes] at hmem
  apply hmem.2
  left
  intro hcon
  apply hnnd
  rw [← dedup_length_eq_iff]
  rw [hcon, classImages_length]

/-- Witness for the amended C6 at the input `pairsSelfTwo` (one pair with
the same image `0` on both sides, match `(queryIdx, trainIdx) = (7, 5)`),
with threshold `2`. -/
theorem same_image_match_erased_witness :
    (build pairsSelfTwo).repr (internId pairsSelfTwo (0, 5)) ∈ (build pairsSelfTwo).classes ∧
      ¬ (classImages (build pairsSelfTwo)
          ((build pairsSelfTwo).repr (internId pairsSelfTwo (0, 5)))).Nodup ∧
      (build pairsSelfTwo).repr (internId pairsSelfTwo (0, 5)) ∉
        (Filter (build pairsSelfTwo) 2).classes :=
  same_image_match_erased pairsSelfTwo ⟨0, 0, [⟨7, 5⟩]⟩ ⟨7, 5⟩ 2
    (by decide) (by decide) (by decide) (by decide)

/-! ### The exporter -/

theorem keysOf_nil : keysOf [] = [] := rfl

theorem keysOf_cons (p : Nat × Nat) (t : List (Nat × Nat)) :
    keysOf (p :: t) = p.1 :: keysOf t := rfl

theorem mem_keysOf_insertA (l : List (Nat × Nat)) (k v x : Nat) :
    x ∈ keysOf (insertA l k v) ↔ x = k ∨ x ∈ keysOf l := by
  induction l with
  | nil => simp [insertA, keysOf]
  | cons p t ih =>
    obtain ⟨k1, v1⟩ := p
    simp only [insertA]
    by_cases hk : k = k1
    · subst hk
      rw [if_pos rfl, keysOf_cons, keysOf_cons]
      simp only [List.mem_cons]
      tauto
    · rw [if_neg hk, keysOf_cons, keysOf_cons]
      simp only [List.mem_cons]
      rw [ih]
      tauto

theorem nodup_keysOf_insertA (l : List (Nat × Nat)) (k v : Nat)
    (h : (keysOf l).Nodup) : (keysOf (insertA l k v)).Nodup := by
  induction l with
  | nil => simp [insertA, keysOf]
  | cons p t ih =>
    obtain ⟨k1, v1⟩ := p
    simp only [insertA]
    rw [keysOf_cons, List.nodup_cons] at h
    by_cases hk : k = k1
    · subst hk
      rw [if_pos rfl, keysOf_cons, List.nodup_cons]
      exact h
    · rw [if_neg hk, keysOf_cons, List.nodup_cons]
      refine ⟨?_, ih h.2⟩
      intro hcon
      rcases (mem_keysOf_insertA t k v k1).mp hcon with h1 | h1
      · exact hk h1.symm
      · exact h.1 h1

theorem nodup_keysOf_foldl_insertA (items : List Nat) (f g : Nat → Nat) :
    ∀ acc : List (Nat × Nat), (keysOf acc).Nodup →
      (keysOf (items.foldl (fun a i => insertA a (f i) (g i)) acc)).Nodup := by
  induction items with
  | nil =>
    intro acc h
    simpa using h
  | cons i t ih =>
    intro acc h
    simp only [List.foldl_cons]
    exact ih _ (nodup_keysOf_insertA _ _ _ h)

theorem nodup_keysOf_submapOfClass (s : TBState) (c : Nat) :
    (keysOf (submapOfClass s c)).Nodup := by
  rw [submapOfClass]
  exact nodup_keysOf_foldl_insertA _ (img s) (feat s) [] (by simp [keysOf])

/-- Claim C8: after `ExportToSTL`, the key set of the produced map is
exactly the contiguous range `[0, T)` with `T = NbTracks()` at export
time, produced in class-iteration order, and within each track the inner
mapping assigns at most one feature index per image (its keys are
pairwise distinct). -/
theorem export_keys_range (s : TBState) (old : STLMAPTracks) :
    (ExportToSTL s old).map Prod.fst = List.range (NbTracks s) ∧
      ∀ t ∈ ExportToSTL s old, (keysOf t.2).Nodup := by
  constructor
  · show ((s.classes.enum.map fun nc => (nc.1, submapOfClass s nc.2)).map Prod.fst) = _
    rw [List.map_map]
    have hcomp : (Prod.fst ∘ fun nc : Nat × Nat => (nc.1, submapOfClass s nc.2)) = Prod.fst :=
      rfl
    rw [hcomp, NbTracks, List.range_eq_range']
    show List.map Prod.fst (s.classes.enumFrom 0) = _
    rw [List.enumFrom_map_fst]
  · intro t ht
    rcases List.mem_map.mp ht with ⟨nc, _, rfl⟩
    exact nodup_keysOf_submapOfClass s nc.2

/-- Witness for C8 at the input `pairsS1`: the exported track `0` is in
the map and its inner keys are pairwise distinct. -/
theorem export_keys_range_witness :
    ((0, [(0, 1), (1, 10)]) : Nat × submapTrack) ∈ ExportToSTL (build pairsS1) [] ∧
      (keysOf (((0, [(0, 1), (1, 10)]) : Nat × submapTrack)).2).Nodup :=
  ⟨by decide, (export_keys_range (build pairsS1) []).2 _ (by decide)⟩

/-- Claim C10: `ExportToSTL` clears the caller-supplied output map before
populating it (`map_tracks.clear()`), so the exported map is independent
of the output map's contents prior to the call. -/
theorem export_independent_of_old (s : TBState) (old1 old2 : STLMAPTracks) :
    ExportToSTL s old1 = ExportToSTL s old2 := rfl

theorem lookup_insertA (l : List (Nat × Nat)) (k v x : Nat) :
    (insertA l k v).lookup x = if x = k then some v else l.lookup x := by
  induction l with
  | nil =>
    by_cases hx : x = k
    · simp [insertA, List.lookup_cons, hx]
    · have hb : (x == k) = false := beq_eq_false_iff_ne.mpr hx
      simp [insertA, List.lookup_cons, hx, hb]
  | cons p t ih =>
    obtain ⟨k1, v1⟩ := p
    simp only [insertA]
    by_cases hk : k = k1
    · subst hk
      rw [if_pos rfl]
      by_cases hx : x = k
      · simp [List.lookup_cons, hx]
      · have hb : (x == k) = false := beq_eq_false_iff_ne.mpr hx
        simp [List.lookup_cons, hx, hb]
    · rw [if_neg hk]
      by_cases hx : x = k1
      · subst hx
        have hxk : ¬ x = k := fun h => hk h.symm
        simp [List.lookup_cons, hxk]
      · have hb : (x == k1) = false := beq_eq_false_iff_ne.mpr hx
        simp [List.lookup_cons, hx, hb, ih]

theorem lookup_foldl_insertA (xs : List (Nat × Nat)) :
    ∀ (acc : List (Nat × Nat)) (x : Nat),
      ((xs.foldl (fun a p => insertA a p.1 p.2) acc).lookup x) =
        (match xs.reverse.find? (fun p => p.1 == x) with
          | some p => some p.2
          | none => acc.lookup x) := by
  induction xs with
  | nil =>
    intro acc x
    simp
  | cons p xs ih =>
    intro acc x
    simp only [List.foldl_cons, List.reverse_cons, List.find?_append]
    rw [ih (insertA acc p.1 p.2) x]
    cases hfind : xs.reverse.find? fun q => q.1 == x with
    | some q => simp [hfind]
    | none =>
      simp only [hfind, Option.none_or]
      rw [lookup_insertA]
      by_cases hx : x = p.1
      · rw [if_pos hx]
        simp [List.find?_cons, beq_iff_eq, hx]
      · rw [if_neg hx]
        have : (p.1 == x) = false := by simpa using fun h => hx h.symm
        simp [List.find?_cons, this]

/-- Counterexample to claim C4 as stated: on the input `pairsConflict`
the single class `2` has three members `(0,1)`, `(1,10)`, `(1,20)` — two
of which resolve to the same image `1` — yet `ExportToSTL` completes
without reporting anything and silently absorbs the conflict into the
inner mapping: the produced map is `[(0, [(0,1), (1,20)])]`, in which the
member `(1,10)` has been overwritten. -/
theorem export_conflict_counterexample :
    (classItems (build pairsConflict) 2).length = 3 ∧
      (classImages (build pairsConflict) 2).dedup.length = 2 ∧
      ExportToSTL (build pairsConflict) [] = [(0, [(0, 1), (1, 20)])] :=
  ⟨by decide, by decide, by decide⟩

/-- Claim C4, amended: `ExportToSTL` does not report an internal error
when two members of a class resolve to the same image; it silently
absorbs them into the inner mapping with last-write-wins semantics: the
inner entry for image `x` is the feature of the last member of the class
(in item-iteration order) whose image is `x`. -/
theorem export_silently_absorbs (s : TBState) (c : Nat) (x : Nat) :
    (submapOfClass s c).lookup x =
      (match ((classItems s c).map fun i => (img s i, feat s i)).reverse.find?
          (fun p => p.1 == x) with
        | some p => some p.2
        | none => none) := by
  have hfold : submapOfClass s c =
      ((classItems s c).map fun i => (img s i, feat s i)).foldl
        (fun a p => insertA a p.1 p.2) [] := by
    rw [submapOfClass, List.foldl_map]
  rw [hfold, lookup_foldl_insertA]
  cases ((classItems s c).map fun i => (img s i, feat s i)).reverse.find?
      (fun p => p.1 == x) with
  | some q => rfl
  | none => rfl

/-! ### Export completeness (sum of track lengths) -/

theorem length_insertA (l : List (Nat × Nat)) (k v : Nat) :
    (insertA l k v).length = if k ∈ keysOf l then l.length else l.length + 1 := by
  induction l with
  | nil => simp [insertA, keysOf]
  | cons p t ih =>
    obtain ⟨k1, v1⟩ := p
    simp only [insertA]
    by_cases hk : k = k1
    · subst hk
      rw [if_pos rfl, keysOf_cons]
      simp
    · rw [if_neg hk, keysOf_cons]
      simp only [List.length_cons, List.mem_cons]
      rw [ih]
      by_cases hm : k ∈ keysOf t
      · rw [if_pos hm, if_pos (Or.inr hm)]
      · rw [if_neg hm, if_neg (by rintro (h | h); exact hk h; exact hm h)]

theorem length_foldl_insertA (items : List Nat) (f g : Nat → Nat) :
    ∀ acc : List (Nat × Nat), (keysOf acc ++ items.map f).Nodup →
      (items.foldl (fun a i => insertA a (f i) (g i)) acc).length =
        acc.length + items.length := by
  induction items with
  | nil =>
    intro acc _
    simp
  | cons i t ih =>
    intro acc h
    simp only [List.map_cons] at h
    have hdisj := List.disjoint_of_nodup_append h
    have hfi : f i ∉ keysOf acc := fun hcon => hdisj hcon (List.mem_cons_self _ _)
    have hlen : (insertA acc (f i) (g i)).length = acc.length + 1 := by
      rw [length_insertA, if_neg hfi]
    have hkeys : keysOf (insertA acc (f i) (g i)) = keysOf acc ++ [f i] := by
      have : insertA acc (f i) (g i) = acc ++ [(f i, g i)] := by
        clear h hdisj hlen ih
        induction acc with
        | nil => simp [insertA]
        | cons p u ihu =>
          obtain ⟨k1, v1⟩ := p
          simp only [insertA]
          rw [if_neg (fun hcon => hfi (by rw [keysOf_cons, hcon]; exact List.mem_cons_self _ _))]
          rw [List.cons_append]
          congr 1
          exact ihu fun hcon => hfi (by rw [keysOf_cons]; exact List.mem_cons_of_mem _ hcon)
      rw [this, keysOf, List.map_append]
      rfl
    have hnodup : (keysOf (insertA acc (f i) (g i)) ++ t.map f).Nodup := by
      rw [hkeys, List.append_assoc, List.singleton_append]
      exact h
    simp only [List.foldl_cons]
    rw [ih _ hnodup, hlen, List.length_cons]
    omega

theorem submapOfClass_length (s : TBState) (c : Nat)
    (h : (classImages s c).Nodup) :
    (submapOfClass s c).length = (classItems s c).length := by
  rw [submapOfClass]
  have := length_foldl_insertA (classItems s c) (img s) (feat s) []
    (by rw [keysOf_nil, List.nil_append]; exact h)
  simpa using this

theorem length_flatMap_eq_sum (l : List Nat) (f : Nat → List Nat) :
    (l.flatMap f).length = (l.map fun a => (f a).length).sum := by
  induction l with
  | nil => simp
  | cons a t ih => simp [ih]

/-! ### Filters only shrink the class list and preserve conflict-freeness -/

theorem applyOp_keys (s : TBState) (op : FilterOp) : (applyOp s op).keys = s.keys := by
  cases op <;> rfl

theorem applyOp_repr (s : TBState) (op : FilterOp) : (applyOp s op).repr = s.repr := by
  cases op <;> rfl

theorem applyOp_classes_subset (s : TBState) (op : FilterOp) :
    ∀ c ∈ (applyOp s op).classes, c ∈ s.classes := by
  intro c hc
  cases op with
  | conflict k => exact (List.mem_filter.mp hc).1
  | pairwise m => exact (List.mem_filter.mp hc).1

theorem classItems_applyOp (s : TBState) (op : FilterOp) (c : Nat) :
    classItems (applyOp s op) c = classItems s c := by
  rw [classItems, classItems, applyOp_keys, applyOp_repr]

theorem img_applyOp (s : TBState) (op : FilterOp) : img (applyOp s op) = img s := by
  funext i
  rw [img, img, applyOp_keys]

theorem classImages_applyOp (s : TBState) (op : FilterOp) (c : Nat) :
    classImages (applyOp s op) c = classImages s c := by
  rw [classImages, classImages, classItems_applyOp, img_applyOp]

theorem conflictFree_applyOp (s : TBState) (op : FilterOp) (h : conflictFree s) :
    conflictFree (applyOp s op) := by
  intro c hc
  rw [classImages_applyOp]
  exact h c (applyOp_classes_subset s op c hc)

theorem conflictFree_applyOps (ops : List FilterOp) :
    ∀ s : TBState, conflictFree s → conflictFree (applyOps s ops) := by
  induction ops with
  | nil =>
    intro s h
    exact h
  | cons op t ih =>
    intro s h
    exact ih (applyOp s op) (conflictFree_applyOp s op h)

theorem conflictFree_filter (s : TBState) (k : Nat) : conflictFree (Filter s k) := by
  intro c hc
  have hc2 := (mem_filter_classes s k c).mp hc
  have hcond := not_or.mp hc2.2
  have himg : classImages (Filter s k) c = classImages s c := rfl
  rw [himg, ← dedup_length_eq_iff, not_not.mp hcond.1, classImages_length]

theorem export_sum_eq (s : TBState) (old : STLMAPTracks) (h : conflictFree s) :
    ((ExportToSTL s old).map fun t => t.2.length).sum = (aliveItems s).length := by
  show ((s.classes.enum.map fun nc => (nc.1, submapOfClass s nc.2)).map
      fun t => t.2.length).sum = _
  rw [List.map_map]
  have hcomp : ((fun t : Nat × submapTrack => t.2.length) ∘
      fun nc : Nat × Nat => (nc.1, submapOfClass s nc.2)) =
      (fun c => (submapOfClass s c).length) ∘ Prod.snd := rfl
  rw [hcomp, ← List.map_map]
  have hsnd : s.classes.enum.map Prod.snd = s.classes := List.enumFrom_map_snd 0 s.classes
  rw [hsnd, aliveItems, length_flatMap_eq_sum]
  congr 1
  apply List.map_congr_left
  intro c hc
  exact submapOfClass_length s c (h c hc)

/-- Counterexample to claim C5 as stated: on the input `pairsConflict`,
with the empty sequence of filter calls, the sum of the exported track
lengths is `2` while the union-find still holds `3` node ids — the inner
mapping absorbs the two same-image members into one entry. -/
theorem export_sum_counterexample :
    ((ExportToSTL (applyOps (build pairsConflict) []) []).map fun t => t.2.length).sum = 2 ∧
      (aliveItems (applyOps (build pairsConflict) [])).length = 3 :=
  ⟨by decide, by decide⟩

/-- Claim C5, amended: for every input and every sequence of filter calls
that contains at least one conflict-filter call (`Filter`), the sum over
all tracks produced by `ExportToSTL` of the track length equals the total
number of node ids still present in the union-find at export time.
(Without a `Filter` call a conflicting class survives and its same-image
members collapse into a single inner entry, as the counterexample
shows.) -/
theorem export_sum_lengths (pairs : List ImagePair) (ops1 : List FilterOp) (k : Nat)
    (ops2 : List FilterOp) (old : STLMAPTracks) :
    ((ExportToSTL (applyOps (Filter (applyOps (build pairs) ops1) k) ops2) old).map
        fun t => t.2.length).sum =
      (aliveItems (applyOps (Filter (applyOps (build pairs) ops1) k) ops2)).length :=
  export_sum_eq _ old (conflictFree_applyOps ops2 _ (conflictFree_filter _ k))

/-! ### The pairwise-support filter -/

theorem mem_tracksOfImage (s : TBState) (I c : Nat) :
    c ∈ tracksOfImage s I ↔ c ∈ s.classes ∧ ∃ i ∈ classItems s c, img s i = I := by
  rw [tracksOfImage]
  simp [List.mem_filter, List.any_eq_true]

theorem mem_interTracks (s : TBState) (I J c : Nat) :
    c ∈ interTracks s I J ↔ c ∈ tracksOfImage s I ∧ c ∈ tracksOfImage s J := by
  rw [interTracks]
  simp [List.mem_filter]

theorem imagesList_pairwise_lt (s : TBState) : (imagesList s).Pairwise (· < ·) := by
  have hs : (imagesList s).Pairwise (· ≤ ·) := List.sorted_insertionSort _ _
  have hn : (imagesList s).Nodup := by
    rw [imagesList]
    exact ((List.perm_insertionSort _ _).nodup_iff).mpr (List.nodup_dedup _)
  exact (hs.and hn).imp fun h => Nat.lt_of_le_of_ne h.1 h.2

theorem mem_suffixPairs {l : List Nat} (hl : l.Pairwise (· < ·)) (I J : Nat) :
    (I, J) ∈ suffixPairs l ↔ I ∈ l ∧ J ∈ l ∧ I ≤ J := by
  induction l with
  | nil => simp [suffixPairs]
  | cons a rest ih =>
    rw [List.pairwise_cons] at hl
    rw [suffixPairs]
    simp only [List.mem_append, List.mem_map, List.mem_cons]
    constructor
    · rintro (⟨b, hb, heq⟩ | h)
      · cases heq
        rcases hb with rfl | hb
        · exact ⟨Or.inl rfl, Or.inl rfl, Nat.le_refl _⟩
        · exact ⟨Or.inl rfl, Or.inr hb, Nat.le_of_lt (hl.1 _ hb)⟩
      · have hrest := (ih hl.2).mp h
        exact ⟨Or.inr hrest.1, Or.inr hrest.2.1, hrest.2.2⟩
    · rintro ⟨hI, hJ, hIJ⟩
      rcases hI with rfl | hI
      · exact Or.inl ⟨J, hJ, rfl⟩
      · rcases hJ with rfl | hJ
        · exact absurd (Nat.lt_of_lt_of_le (hl.1 _ hI) hIJ) (Nat.lt_irrefl _)
        · exact Or.inr ((ih hl.2).mpr ⟨hI, hJ, hIJ⟩)

theorem mem_vecTracksToRemove (s : TBState) (m c : Nat) :
    c ∈ vecTracksToRemove s m ↔ ∃ I J : Nat, (I, J) ∈ suffixPairs (imagesList s) ∧
      (interTracks s I J).length < m ∧ c ∈ interTracks s I J := by
  rw [vecTracksToRemove]
  simp only [List.mem_flatMap]
  constructor
  · rintro ⟨ij, hij, hc⟩
    by_cases h : (interTracks s ij.1 ij.2).length < m
    · rw [if_pos h] at hc
      exact ⟨ij.1, ij.2, by rwa [Prod.mk.eta], h, hc⟩
    · rw [if_neg h] at hc
      cases hc
  · rintro ⟨I, J, hij, hlen, hc⟩
    refine ⟨(I, J), hij, ?_⟩
    rw [if_pos hlen]
    exact hc

theorem mem_pairwise_filter_classes (s : TBState) (m : Nat) (c : Nat) :
    c ∈ (FilterPairWiseMinimumMatches s m).classes ↔
      c ∈ s.classes ∧ c ∉ vecTracksToRemove s m := by
  show c ∈ s.classes.filter _ ↔ _
  simp [List.mem_filter]

/-- Claim C3: `FilterPairWiseMinimumMatches(minOccurrences)` computes,
for every image `I`, the set `TracksByImage[I]` of class representatives
having a member in `I` (first conjunct: `tracksOfImage` is exactly that
set); then a class is erased if and only if some pair of images
`(I, J)` with `I ≤ J` — the diagonal `I = J` included — has
`TracksByImage[I] ∩ TracksByImage[J]` of size smaller than
`minOccurrences` containing it: exactly the deduplicated union of the
marked track ids is erased. -/
theorem pairwise_filter_erases_iff (s : TBState) (m : Nat) :
    (∀ I c, c ∈ tracksOfImage s I ↔
        c ∈ s.classes ∧ ∃ i ∈ classItems s c, img s i = I) ∧
      ∀ c ∈ s.classes,
        (c ∉ (FilterPairWiseMinimumMatches s m).classes ↔
          ∃ I J : Nat, I ∈ imagesList s ∧ J ∈ imagesList s ∧ I ≤ J ∧
            c ∈ interTracks s I J ∧ (interTracks s I J).length < m) := by
  refine ⟨fun I c => mem_tracksOfImage s I c, ?_⟩
  intro c hc
  constructor
  · intro h
    have hmem : c ∈ vecTracksToRemove s m := by
      by_contra hnc
      exact h ((mem_pairwise_filter_classes s m c).mpr ⟨hc, hnc⟩)
    rcases (mem_vecTracksToRemove s m c).mp hmem with ⟨I, J, hij, hlen, hcin⟩
    have hIJ := (mem_suffixPairs (imagesList_pairwise_lt s) I J).mp hij
    exact ⟨I, J, hIJ.1, hIJ.2.1, hIJ.2.2, hcin, hlen⟩
  · rintro ⟨I, J, hI, hJ, hIJ, hcin, hlen⟩ hmemcl
    exact ((mem_pairwise_filter_classes s m c).mp hmemcl).2
      ((mem_vecTracksToRemove s m c).mpr
        ⟨I, J, (mem_suffixPairs (imagesList_pairwise_lt s) I J).mpr ⟨hI, hJ, hIJ⟩,
          hlen, hcin⟩)

/-- Witness for C3 at the input `pairsS1` with `minOccurrences = 3`:
class `2` is present after `Build`, and the equivalence holds for it (it
is erased: images `0` and `1` share only the two tracks `2` and `3`,
fewer than three). -/
theorem pairwise_filter_erases_iff_witness :
    (2 ∈ (build pairsS1).classes) ∧
      (2 ∉ (FilterPairWiseMinimumMatches (build pairsS1) 3).classes ↔
        ∃ I J : Nat, I ∈ imagesList (build pairsS1) ∧ J ∈ imagesList (build pairsS1) ∧
          I ≤ J ∧ 2 ∈ interTracks (build pairsS1) I J ∧
          (interTracks (build pairsS1) I J).length < 3) :=
  ⟨by decide, (pairwise_filter_erases_iff (build pairsS1) 3).2 2 (by decide)⟩

/-! ### Idempotence of duplicate matches -/

theorem foldl_upd_dup (r : Nat → Nat) (e : Nat × Nat) (l : List (Nat × Nat)) :
    List.foldl upd r (e :: e :: l) = List.foldl upd r (e :: l) := by
  simp only [List.foldl_cons]
  have he : upd r e e.1 = upd r e e.2 := by
    show (if r e.1 = r e.1 then r e.2 else r e.1) = if r e.2 = r e.1 then r e.2 else r e.2
    rw [if_pos rfl]
    by_cases hb : r e.2 = r e.1
    · rw [if_pos hb]
    · rw [if_neg hb]
  have hupd : upd (upd r e) e = upd r e := by
    funext x
    have hdef : upd (upd r e) e x =
        if upd r e x = upd r e e.1 then upd r e e.2 else upd r e x := rfl
    rw [hdef]
    by_cases hx : upd r e x = upd r e e.1
    · rw [if_pos hx, ← he, ← hx]
    · rw [if_neg hx]
  rw [hupd]

theorem dedup_middle_dup {α : Type} [DecidableEq α] :
    ∀ (l1 : List α) (a b : α) (l2 : List α),
      (l1 ++ a :: b :: a :: b :: l2).dedup = (l1 ++ a :: b :: l2).dedup := by
  intro l1
  induction l1 with
  | nil =>
    intro a b l2
    simp only [List.nil_append]
    rw [List.dedup_cons_of_mem (show a ∈ b :: a :: b :: l2 by simp),
      List.dedup_cons_of_mem (show b ∈ a :: b :: l2 by simp)]
  | cons x t ih =>
    intro a b l2
    simp only [List.cons_append]
    by_cases hx : x ∈ t ++ a :: b :: a :: b :: l2
    · have hx2 : x ∈ t ++ a :: b :: l2 := by
        rcases List.mem_append.mp hx with h | h
        · exact List.mem_append.mpr (Or.inl h)
        · refine List.mem_append.mpr (Or.inr ?_)
          simp only [List.mem_cons] at h ⊢
          tauto
      rw [List.dedup_cons_of_mem hx, List.dedup_cons_of_mem hx2, ih]
    · have hx2 : x ∉ t ++ a :: b :: l2 := by
        intro hcon
        apply hx
        rcases List.mem_append.mp hcon with h | h
        · exact List.mem_append.mpr (Or.inl h)
        · refine List.mem_append.mpr (Or.inr ?_)
          simp only [List.mem_cons] at h ⊢
          tauto
      rw [List.dedup_cons_of_not_mem hx, List.dedup_cons_of_not_mem hx2, ih]

theorem duplicate_match_build_eq (pre post : List ImagePair) (i1 i2 : Nat)
    (ml1 ml2 : List IndMatch) (m0 : IndMatch) :
    build (pre ++ (⟨i1, i2, ml1 ++ m0 :: m0 :: ml2⟩ : ImagePair) :: post) =
      build (pre ++ (⟨i1, i2, ml1 ++ m0 :: ml2⟩ : ImagePair) :: post) := by
  have hend : endpoints (pre ++ (⟨i1, i2, ml1 ++ m0 :: m0 :: ml2⟩ : ImagePair) :: post) =
      (endpoints pre ++ ml1.flatMap fun m =>
          [((i1, m.trainIdx) : NodeKey), (i2, m.queryIdx)]) ++
        (i1, m0.trainIdx) :: (i2, m0.queryIdx) :: (i1, m0.trainIdx) :: (i2, m0.queryIdx) ::
          (ml2.flatMap (fun m => [((i1, m.trainIdx) : NodeKey), (i2, m.queryIdx)]) ++
            endpoints post) := by
    simp [endpoints, List.flatMap_append, List.flatMap_cons, List.append_assoc]
  have hend2 : endpoints (pre ++ (⟨i1, i2, ml1 ++ m0 :: ml2⟩ : ImagePair) :: post) =
      (endpoints pre ++ ml1.flatMap fun m =>
          [((i1, m.trainIdx) : NodeKey), (i2, m.queryIdx)]) ++
        (i1, m0.trainIdx) :: (i2, m0.queryIdx) ::
          (ml2.flatMap (fun m => [((i1, m.trainIdx) : NodeKey), (i2, m.queryIdx)]) ++
            endpoints post) := by
    simp [endpoints, List.flatMap_append, List.flatMap_cons, List.append_assoc]
  have hint : interned (pre ++ (⟨i1, i2, ml1 ++ m0 :: m0 :: ml2⟩ : ImagePair) :: post) =
      interned (pre ++ (⟨i1, i2, ml1 ++ m0 :: ml2⟩ : ImagePair) :: post) := by
    rw [interned, interned, hend, hend2, dedup_middle_dup]
  have hiid : internId (pre ++ (⟨i1, i2, ml1 ++ m0 :: m0 :: ml2⟩ : ImagePair) :: post) =
      internId (pre ++ (⟨i1, i2, ml1 ++ m0 :: ml2⟩ : ImagePair) :: post) := by
    funext k
    rw [internId, internId, hint]
  obtain ⟨L, C, e0, h1, h2⟩ : ∃ (L C : List (Nat × Nat)) (e0 : Nat × Nat),
      idEdges (pre ++ (⟨i1, i2, ml1 ++ m0 :: m0 :: ml2⟩ : ImagePair) :: post) =
          L ++ e0 :: e0 :: C ∧
        idEdges (pre ++ (⟨i1, i2, ml1 ++ m0 :: ml2⟩ : ImagePair) :: post) =
          L ++ e0 :: C := by
    refine ⟨(pre.flatMap fun p => p.get_matches.map fun m =>
          (internId (pre ++ (⟨i1, i2, ml1 ++ m0 :: ml2⟩ : ImagePair) :: post)
              (p.first, m.trainIdx),
            internId (pre ++ (⟨i1, i2, ml1 ++ m0 :: ml2⟩ : ImagePair) :: post)
              (p.second, m.queryIdx))) ++
        ml1.map fun m =>
          (internId (pre ++ (⟨i1, i2, ml1 ++ m0 :: ml2⟩ : ImagePair) :: post)
              (i1, m.trainIdx),
            internId (pre ++ (⟨i1, i2, ml1 ++ m0 :: ml2⟩ : ImagePair) :: post)
              (i2, m.queryIdx)),
      ml2.map (fun m =>
          (internId (pre ++ (⟨i1, i2, ml1 ++ m0 :: ml2⟩ : ImagePair) :: post)
              (i1, m.trainIdx),
            internId (pre ++ (⟨i1, i2, ml1 ++ m0 :: ml2⟩ : ImagePair) :: post)
              (i2, m.queryIdx))) ++
        post.flatMap fun p => p.get_matches.map fun m =>
          (internId (pre ++ (⟨i1, i2, ml1 ++ m0 :: ml2⟩ : ImagePair) :: post)
              (p.first, m.trainIdx),
            internId (pre ++ (⟨i1, i2, ml1 ++ m0 :: ml2⟩ : ImagePair) :: post)
              (p.second, m.queryIdx)),
      (internId (pre ++ (⟨i1, i2, ml1 ++ m0 :: ml2⟩ : ImagePair) :: post)
          (i1, m0.trainIdx),
        internId (pre ++ (⟨i1, i2, ml1 ++ m0 :: ml2⟩ : ImagePair) :: post)
          (i2, m0.queryIdx)), ?_, ?_⟩
    · simp [idEdges, hiid, List.flatMap_append, List.flatMap_cons, List.map_append,
        List.append_assoc]
    · simp [idEdges, List.flatMap_append, List.flatMap_cons, List.map_append,
        List.append_assoc]
  have hrepr : buildRepr (idEdges (pre ++ (⟨i1, i2, ml1 ++ m0 :: m0 :: ml2⟩ : ImagePair) :: post)) =
      buildRepr (idEdges (pre ++ (⟨i1, i2, ml1 ++ m0 :: ml2⟩ : ImagePair) :: post)) := by
    rw [h1, h2, buildRepr, buildRepr, List.foldl_append, List.foldl_append, foldl_upd_dup]
  simp only [build]
  rw [hint, hrepr]

/-- Claim C7: duplicating any match of the input — inserting the same
match assertion again immediately after the original inside its image
pair — leaves the final `TrackMap` produced by `Build`, any sequence of
filter calls, and `ExportToSTL` unchanged. -/
theorem duplicate_match_pipeline (pre post : List ImagePair) (i1 i2 : Nat)
    (ml1 ml2 : List IndMatch) (m0 : IndMatch) (ops : List FilterOp) (old : STLMAPTracks) :
    ExportToSTL
        (applyOps (build (pre ++ (⟨i1, i2, ml1 ++ m0 :: m0 :: ml2⟩ : ImagePair) :: post)) ops)
        old =
      ExportToSTL
        (applyOps (build (pre ++ (⟨i1, i2, ml1 ++ m0 :: ml2⟩ : ImagePair) :: post)) ops)
        old := by
  rw [duplicate_match_build_eq]

end Photogram
